import Mathlib

/-!
Verification of the table components of `substrate-benchmark-reviewer`
(`src/tables.rs`): the `RatioTable` and `StepIncrTable` containers, their
append, sort, export (`raw_list`) and render (`print_entries`) operations.

Modelling conventions:
* `f64` values are modelled by `F64`: NaN, the two infinities, and finite
  values carried as exact rationals.  `F64.partialCmp` mirrors Rust's
  `f64::partial_cmp` (returning `none` exactly when a NaN is involved).
* Rust's stable `slice::sort_by` with comparator `c` is modelled as a stable
  insertion sort with the predicate "`c a b` is not `Greater`".  For a
  comparator that is a total preorder this yields the unique stable result,
  which is what Rust's stable sort produces.
* `println!`/`print!` output is modelled by returning the printed `String`.
  Rust's `{:^w}` centering puts the extra padding space on the right;
  `{:<w}` pads on the right; `{:>w}` pads on the left; `{:-<w}` pads with
  dashes.  `f64`'s `Display` prints finite values as plain decimals without
  a trailing `.0` (e.g. `1`, `1.8363`); this is modelled for finite values
  with a terminating decimal expansion, which covers all values appearing
  in the specification's concrete examples.
-/

namespace SBR

/-- Model of an IEEE double: NaN, infinities, or a finite value (exact
rational payload; ordering of finite doubles agrees with rational order). -/
inductive F64 where
  | nan : F64
  | neginf : F64
  | finite (q : ℚ) : F64
  | posinf : F64
deriving DecidableEq, Repr

/-- Three-way comparison of rationals, by cross-multiplication of the
(always positive) denominators; agrees with the rational order. -/
def qcmp (a b : ℚ) : Ordering :=
  if a.num * b.den < b.num * a.den then .lt
  else if b.num * a.den < a.num * b.den then .gt
  else .eq

/-- Model of `f64::partial_cmp`: `none` exactly when a NaN is involved,
otherwise the total order neginf < finite < posinf with rational order on
finite values. -/
def F64.partialCmp : F64 → F64 → Option Ordering
  | .nan, _ => none
  | .neginf, .nan => none
  | .finite _, .nan => none
  | .posinf, .nan => none
  | .neginf, .neginf => some .eq
  | .neginf, .finite _ => some .lt
  | .neginf, .posinf => some .lt
  | .finite _, .neginf => some .gt
  | .finite a, .finite b => some (qcmp a b)
  | .finite _, .posinf => some .lt
  | .posinf, .neginf => some .gt
  | .posinf, .finite _ => some .gt
  | .posinf, .posinf => some .eq

/-- Is this value a NaN? -/
def F64.isNaN : F64 → Bool
  | .nan => true
  | _ => false

/-- IEEE `<=` on doubles (false whenever a NaN is involved). -/
def F64.leb (a b : F64) : Bool :=
  match a.partialCmp b with
  | some .lt => true
  | some .eq => true
  | _ => false

/-- IEEE `>=` on doubles (false whenever a NaN is involved). -/
def F64.geb (a b : F64) : Bool :=
  match a.partialCmp b with
  | some .gt => true
  | some .eq => true
  | _ => false

/-- IEEE `==` on doubles (false whenever a NaN is involved). -/
def F64.eqb (a b : F64) : Bool :=
  match a.partialCmp b with
  | some .eq => true
  | _ => false

/-- Stable insertion of `a` into `l`: `a` goes in front of the first element
`b` with `le a b`. -/
def insertLe (le : α → α → Bool) (a : α) : List α → List α
  | [] => [a]
  | b :: l => if le a b then a :: b :: l else b :: insertLe le a l

/-- Stable insertion sort by a boolean "may come before" predicate. -/
def sortLe (le : α → α → Bool) : List α → List α
  | [] => []
  | a :: l => insertLe le a (sortLe le l)

/-- Model of Rust's stable `slice::sort_by` with an `Ordering`-valued
comparator: stable sort where `a` may come before `b` iff the comparator
does not answer `Greater`. -/
def sortByCmp (cmp : α → α → Ordering) : List α → List α :=
  sortLe (fun a b => cmp a b != Ordering.gt)

/-- Totality of the "may come before" predicate. -/
def TotalLe (le : α → α → Bool) : Prop := ∀ a b, le a b = true ∨ le b a = true

/-- One row of a `RatioTable` (struct `RatioTableEntry`). -/
structure RatioTableEntry where
  pallet : String
  extrinsic : String
  avg_extrinsic_time : F64
  avg_storage_root_time : F64
  ratio : F64
  percentage : F64
deriving DecidableEq, Repr

/-- The `RatioTable` container: a vector of entries. -/
structure RatioTable where
  inner : List RatioTableEntry
deriving DecidableEq, Repr

/-- Rust `RatioTable::new`. -/
def RatioTable.new : RatioTable := ⟨[]⟩

/-- Rust `RatioTable::push`: appends one entry at the end. -/
def RatioTable.push (t : RatioTable) (e : RatioTableEntry) : RatioTable :=
  ⟨t.inner ++ [e]⟩

/-- The tuple type returned by `RatioTable::raw_list`. -/
abbrev RatioRaw := String × String × F64 × F64 × F64 × F64

/-- Rust `RatioTable::raw_list`: one tuple per entry, in current order. -/
def RatioTable.raw_list (t : RatioTable) : List RatioRaw :=
  t.inner.map fun e =>
    (e.pallet, e.extrinsic, e.avg_extrinsic_time, e.avg_storage_root_time,
      e.ratio, e.percentage)

/-- The ratio component of an exported `RatioTable` tuple. -/
def rawRatio (r : RatioRaw) : F64 := r.2.2.2.2.1

/-- The comparator of `RatioTable::sort_by_ratio`:
`a.ratio.partial_cmp(&b.ratio).unwrap_or(Ordering::Equal)`. -/
def ratioEntryCmp (a b : RatioTableEntry) : Ordering :=
  (a.ratio.partialCmp b.ratio).getD Ordering.eq

/-- Rust `RatioTable::sort_by_ratio`: stable sort of the entries by the
NaN-tolerant ratio comparator. -/
def RatioTable.sort_by_ratio (t : RatioTable) : RatioTable :=
  ⟨sortByCmp ratioEntryCmp t.inner⟩

/-- Rust `format!("{:<w}", s)`: left-align, pad with spaces on the right. -/
def padRight (s : String) (w : Nat) : String :=
  s ++ String.mk (List.replicate (w - s.length) ' ')

/-- Rust `format!("{:>w}", s)`: right-align, pad with spaces on the left. -/
def padLeft (s : String) (w : Nat) : String :=
  String.mk (List.replicate (w - s.length) ' ') ++ s

/-- Rust `format!("{:^w}", s)`: center, extra padding going to the right. -/
def center (s : String) (w : Nat) : String :=
  let pad := w - s.length
  String.mk (List.replicate (pad / 2) ' ') ++ s ++
    String.mk (List.replicate (pad - pad / 2) ' ')

/-- Rust `format!("{:-<w}", "")`: a run of `w` dashes. -/
def dashRun (w : Nat) : String :=
  String.mk (List.replicate w '-')

/-- Decimal digits of the fraction `r / d` (expects `r < d`), by long
division, stopping when the remainder is zero or the fuel runs out. -/
def fracDigits : Nat → Nat → Nat → List Char
  | 0, _, _ => []
  | fuel + 1, r, d =>
    if r = 0 then []
    else Nat.digitChar (r * 10 / d) :: fracDigits fuel (r * 10 % d) d

/-- Decimal rendering of the nonnegative rational `n / d`, Rust
`Display`-style: no trailing `.0` for integers, fractional digits
otherwise. -/
def ratDisplayNonneg (n d : Nat) : String :=
  if n % d = 0 then Nat.repr (n / d)
  else Nat.repr (n / d) ++ "." ++ String.mk (fracDigits 30 (n % d) d)

/-- Decimal rendering of a rational, Rust `Display`-style. -/
def ratDisplay (q : ℚ) : String :=
  if q.num < 0 then "-" ++ ratDisplayNonneg (-q.num).toNat q.den
  else ratDisplayNonneg q.num.toNat q.den

/-- Model of Rust's `Display` for `f64` (for finite values with terminating
decimal expansion, as in the specification's examples). -/
def F64.display : F64 → String
  | .nan => "NaN"
  | .neginf => "-inf"
  | .posinf => "inf"
  | .finite q => ratDisplay q

/-- Rust `RatioTable::print_entries`, with the standard-output text returned as a
string.  Column width 14; header cells centered; separator of four dash runs;
body rows left-aligned except the percentage, right-aligned at width 12 and
followed by a space and a percent sign. -/
def RatioTable.print_entries (t : RatioTable) : String :=
  let width := 14
  let header :=
    "|" ++ center "Pallet" width ++ "|" ++ center "Extrinsic" width ++
      "|" ++ center "Ratio" width ++ "|" ++ center "Increase" width ++ "|\n"
  let line :=
    String.join (List.replicate 4 ("|" ++ dashRun width)) ++ "|\n"
  let body := t.inner.map fun e =>
    "|" ++ padRight e.pallet width ++ "|" ++ padRight e.extrinsic width ++
      "|" ++ padRight e.ratio.display width ++
      "|" ++ padLeft e.percentage.display (width - 2) ++ " %|\n"
  header ++ line ++ String.join body

/-- One measurement step of a `StepIncrTable` entry (struct `StepRepeatIncr`). -/
structure StepRepeatIncr where
  input_vars : List Nat
  avg_extrinsic_time : F64
  avg_storage_root_time : F64
  extrinsic_percentage : F64
  storage_root_percentage : F64
deriving DecidableEq, Repr

/-- One row of a `StepIncrTable` (struct `StepIncrTableEntry`). -/
structure StepIncrTableEntry where
  pallet : String
  extrinsic : String
  steps : List StepRepeatIncr
deriving DecidableEq, Repr

/-- The `StepIncrTable` container: a vector of entries. -/
structure StepIncrTable where
  inner : List StepIncrTableEntry
deriving DecidableEq, Repr

/-- Rust `StepIncrTable::new`. -/
def StepIncrTable.new : StepIncrTable := ⟨[]⟩

/-- Rust `StepIncrTable::push`: appends one entry at the end. -/
def StepIncrTable.push (t : StepIncrTable) (e : StepIncrTableEntry) :
    StepIncrTable :=
  ⟨t.inner ++ [e]⟩

/-- The comparator of `StepIncrTable::sort_by_extrinsic_percentage`
(descending): `b.extrinsic_percentage.partial_cmp(&a.extrinsic_percentage)
.unwrap_or(Ordering::Equal)`. -/
def stepCmp (a b : StepRepeatIncr) : Ordering :=
  (b.extrinsic_percentage.partialCmp a.extrinsic_percentage).getD Ordering.eq

/-- Rust `StepIncrTable::sort_by_extrinsic_percentage`: for every entry, stable
sort of that entry's steps, descending by extrinsic percentage; the entries
themselves stay in place. -/
def StepIncrTable.sort_by_extrinsic_percentage (t : StepIncrTable) :
    StepIncrTable :=
  ⟨t.inner.map fun e => { e with steps := sortByCmp stepCmp e.steps }⟩

/-- The tuple type returned by `StepIncrTable::raw_list`. -/
abbrev StepRaw := String × String × List Nat × F64 × F64 × F64 × F64

/-- The tuple built by `StepIncrTable::raw_list` from an entry and one of
its steps. -/
def stepRawOf (e : StepIncrTableEntry) (s : StepRepeatIncr) : StepRaw :=
  (e.pallet, e.extrinsic, s.input_vars, s.avg_extrinsic_time,
    s.avg_storage_root_time, s.extrinsic_percentage, s.storage_root_percentage)

/-- Rust `StepIncrTable::raw_list`: per entry, one tuple per step, flattened in
entry-major, step-minor order. -/
def StepIncrTable.raw_list (t : StepIncrTable) : List StepRaw :=
  (t.inner.map fun e => e.steps.map fun s => stepRawOf e s).flatten

/-! ### Concrete data used by counterexamples and witnesses -/

/-- The rational 1.8363. -/
def q18363 : ℚ := ⟨18363, 10000, by norm_num, by norm_num⟩

/-- The rational 83.6271. -/
def q836271 : ℚ := ⟨836271, 10000, by norm_num, by norm_num⟩

/-- The two-entry table of the specification's print-format example. -/
def demoTable : RatioTable :=
  ⟨[⟨"identity", "add_registrar", .finite 1, .finite 0, .finite 1, .finite 0⟩,
    ⟨"treasury", "tip_new", .finite q18363, .finite 0, .finite q18363,
      .finite q836271⟩]⟩

/-- A measurement step whose extrinsic percentage is NaN. -/
def nanStep : StepRepeatIncr := ⟨[], .finite 0, .finite 0, .nan, .finite 0⟩

/-- A measurement step with all values zero. -/
def zeroStep : StepRepeatIncr := ⟨[], .finite 0, .finite 0, .finite 0, .finite 0⟩

/-- A one-entry step table whose steps are a NaN percentage followed by a
zero percentage. -/
def nanStepTable : StepIncrTable := ⟨[⟨"p", "e", [nanStep, zeroStep]⟩]⟩

/-- A step table with three entries of step counts 2, 0 and 3. -/
def fiveStepTable : StepIncrTable :=
  ⟨[⟨"a", "b", [zeroStep, zeroStep]⟩, ⟨"c", "d", []⟩,
    ⟨"e", "f", [zeroStep, zeroStep, zeroStep]⟩]⟩

/-- A ratio-table entry whose ratio is NaN. -/
def nanEntry : RatioTableEntry := ⟨"p", "e", .finite 0, .finite 0, .nan, .finite 0⟩

/-! ### Basic facts about the comparison model -/

/-- The function `qcmp` answers `eq` exactly on cross-multiplied equality. -/
theorem qcmp_eq_iff (a b : ℚ) :
    qcmp a b = Ordering.eq ↔ a.num * b.den = b.num * a.den := by
  unfold qcmp
  split_ifs with h1 h2 <;> simp <;> omega

/-- The function `qcmp` answers `gt` one way exactly when it answers `lt` the
other way. -/
theorem qcmp_gt_iff_lt (a b : ℚ) :
    qcmp a b = Ordering.gt ↔ qcmp b a = Ordering.lt := by
  unfold qcmp
  split_ifs with h1 h2 h3 <;> simp <;> omega

/-- The comparison `partialCmp` is `none` exactly when one of the arguments
is a NaN. -/
theorem F64.partialCmp_eq_none_iff (a b : F64) :
    a.partialCmp b = none ↔ (a.isNaN = true ∨ b.isNaN = true) := by
  cases a <;> cases b <;> simp [F64.partialCmp, F64.isNaN]

/-- Antisymmetry of `partialCmp`: strict answers flip under swapping. -/
theorem F64.partialCmp_gt_iff_lt (a b : F64) :
    a.partialCmp b = some Ordering.gt ↔ b.partialCmp a = some Ordering.lt := by
  cases a <;> cases b <;>
    simp [F64.partialCmp, qcmp_gt_iff_lt]

/-- Equality answers of `partialCmp` propagate through a common witness. -/
theorem F64.partialCmp_eq_trans {a b v : F64}
    (h1 : a.partialCmp v = some Ordering.eq)
    (h2 : b.partialCmp v = some Ordering.eq) :
    a.partialCmp b = some Ordering.eq := by
  cases a <;> cases b <;> cases v <;>
    simp_all [F64.partialCmp, qcmp_eq_iff]
  case finite.finite.finite x y q =>
    have hd : ((q.den : ℤ)) ≠ 0 := by
      exact_mod_cast q.den_nz
    have key : (q.den : ℤ) * (x.num * y.den) = (q.den : ℤ) * (y.num * x.den) := by
      linear_combination (y.den : ℤ) * h1 - (x.den : ℤ) * h2
    exact mul_left_cancel₀ hd key

/-- The test `leb` holds whenever `partialCmp` answers `lt` or `eq`. -/
theorem F64.leb_of_partialCmp {a b : F64} {o : Ordering}
    (h : a.partialCmp b = some o) (ho : o ≠ Ordering.gt) : a.leb b = true := by
  cases o <;> simp [F64.leb, h] at ho ⊢

/-- The test `geb` holds whenever `partialCmp` answers `gt` or `eq`. -/
theorem F64.geb_of_partialCmp {a b : F64} {o : Ordering}
    (h : a.partialCmp b = some o) (ho : o ≠ Ordering.lt) : a.geb b = true := by
  cases o <;> simp [F64.geb, h] at ho ⊢

/-- The test `eqb` holds exactly when `partialCmp` answers `eq`. -/
theorem F64.eqb_iff (a b : F64) :
    a.eqb b = true ↔ a.partialCmp b = some Ordering.eq := by
  unfold F64.eqb
  split <;> simp_all

/-! ### The stable insertion sort: permutation, adjacency, idempotence,
stability -/

section SortLemmas

variable {α : Type _} (le : α → α → Bool)

/-- Inserting produces a permutation of consing. -/
theorem insertLe_perm (a : α) (l : List α) : (insertLe le a l).Perm (a :: l) := by
  induction l with
  | nil => simp [insertLe]
  | cons b l ih =>
    by_cases h : le a b = true
    · simp [insertLe, h]
    · simp only [insertLe, h]
      rw [if_neg (by simp [h])]
      exact ((ih.cons b).trans (List.Perm.swap a b l))

/-- The sort produces a permutation of its input. -/
theorem sortLe_perm (l : List α) : (sortLe le l).Perm l := by
  induction l with
  | nil => exact List.Perm.refl _
  | cons a l ih =>
    exact (insertLe_perm le a (sortLe le l)).trans (ih.cons a)

/-- The head of an insertion is the new element or the old head. -/
theorem insertLe_head? (a : α) (l : List α) :
    (insertLe le a l).head? = some a ∨ (insertLe le a l).head? = l.head? := by
  cases l with
  | nil => simp [insertLe]
  | cons b l =>
    by_cases h : le a b = true
    · simp [insertLe, h]
    · simp only [insertLe]
      rw [if_neg (by simp [h])]
      simp

variable {le}

/-- Insertion preserves the adjacent-ordering property, assuming only
totality of the predicate (no transitivity needed). -/
theorem insertLe_chain' (hto : TotalLe le) {l : List α}
    (h : l.Chain' (fun x y => le x y = true)) (a : α) :
    (insertLe le a l).Chain' (fun x y => le x y = true) := by
  induction l with
  | nil => simp [insertLe]
  | cons b l ih =>
    by_cases hab : le a b = true
    · simp only [insertLe, if_pos hab]
      exact List.chain'_cons.mpr ⟨hab, h⟩
    · simp only [insertLe]
      rw [if_neg (by simp [hab])]
      have hba : le b a = true := (hto a b).resolve_left hab
      rw [List.chain'_cons'] at h ⊢
      refine ⟨?_, ih h.2⟩
      intro y hy
      rcases insertLe_head? le a l with hh | hh
      · rw [hh] at hy
        simp only [Option.mem_def, Option.some.injEq] at hy
        exact hy ▸ hba
      · rw [hh] at hy
        exact h.1 y hy

/-- The sorted list has the adjacent-ordering property, assuming only
totality of the predicate. -/
theorem sortLe_chain' (hto : TotalLe le) (l : List α) :
    (sortLe le l).Chain' (fun x y => le x y = true) := by
  induction l with
  | nil => simp [sortLe]
  | cons a l ih => exact insertLe_chain' hto ih a

/-- Sorting a list that already has the adjacent-ordering property leaves
it unchanged. -/
theorem sortLe_eq_of_chain' {l : List α}
    (h : l.Chain' (fun x y => le x y = true)) : sortLe le l = l := by
  induction l with
  | nil => rfl
  | cons a l ih =>
    have ht : sortLe le l = l := ih h.tail
    simp only [sortLe, ht]
    cases l with
    | nil => rfl
    | cons b l =>
      have hab : le a b = true := (List.chain'_cons.mp h).1
      simp [insertLe, hab]

/-- The sort is idempotent, assuming only totality of the predicate. -/
theorem sortLe_idem (hto : TotalLe le) (l : List α) :
    sortLe le (sortLe le l) = sortLe le l :=
  sortLe_eq_of_chain' (sortLe_chain' hto l)

/-- Insertion of a non-matching element does not disturb a filter. -/
theorem filter_insertLe_neg {p : α → Bool} {a : α} (hpa : p a = false)
    (l : List α) : (insertLe le a l).filter p = l.filter p := by
  induction l with
  | nil => simp [insertLe, hpa]
  | cons b l ih =>
    by_cases hab : le a b = true
    · simp [insertLe, hab, List.filter_cons, hpa]
    · simp only [insertLe]
      rw [if_neg (by simp [hab])]
      simp [List.filter_cons, ih]

/-- Insertion of a matching element that may come before every matching
element puts it at the front of the filter. -/
theorem filter_insertLe_pos {p : α → Bool} {a : α} (hpa : p a = true)
    (H : ∀ b, p b = true → le a b = true)
    (l : List α) : (insertLe le a l).filter p = a :: l.filter p := by
  induction l with
  | nil => simp [insertLe, hpa]
  | cons b l ih =>
    by_cases hab : le a b = true
    · simp [insertLe, hab, List.filter_cons, hpa]
    · have hpb : p b = false := by
        cases hb : p b
        · rfl
        · exact absurd (H b hb) hab
      simp only [insertLe]
      rw [if_neg (by simp [hab])]
      simp [List.filter_cons, hpb, ih]

/-- Stability of the sort, phrased through filters: the subsequence of
elements matching `p` is untouched, provided matching elements never
strictly exceed each other. -/
theorem filter_sortLe {p : α → Bool}
    (H : ∀ a b, p a = true → p b = true → le a b = true)
    (l : List α) : (sortLe le l).filter p = l.filter p := by
  induction l with
  | nil => rfl
  | cons a l ih =>
    cases hpa : p a
    · simp only [sortLe]
      rw [filter_insertLe_neg hpa, ih, List.filter_cons, hpa]
      simp
    · simp only [sortLe]
      rw [filter_insertLe_pos hpa (fun b hb => H a b hpa hb), ih,
        List.filter_cons, hpa]
      simp

end SortLemmas

/-! ### Totality of the two Rust comparators -/

/-- The NaN-tolerant comparator `partial_cmp(..).unwrap_or(Equal)` never
answers `Greater` in both directions. -/
theorem getD_partialCmp_total (x y : F64) :
    ((x.partialCmp y).getD Ordering.eq != Ordering.gt) = true ∨
      ((y.partialCmp x).getD Ordering.eq != Ordering.gt) = true := by
  by_cases h : x.partialCmp y = some Ordering.gt
  · right
    rw [(F64.partialCmp_gt_iff_lt x y).mp h]
    rfl
  · left
    cases hc : x.partialCmp y with
    | none => rfl
    | some o =>
      cases o with
      | lt => rfl
      | eq => rfl
      | gt => exact absurd hc h

/-- Totality of the entry ordering used by `RatioTable::sort_by_ratio`. -/
theorem ratioEntryCmp_total :
    TotalLe (fun a b : RatioTableEntry => ratioEntryCmp a b != Ordering.gt) :=
  fun a b => getD_partialCmp_total a.ratio b.ratio

/-- Totality of the step ordering used by
`StepIncrTable::sort_by_extrinsic_percentage`. -/
theorem stepCmp_total :
    TotalLe (fun a b : StepRepeatIncr => stepCmp a b != Ordering.gt) :=
  fun a b => getD_partialCmp_total b.extrinsic_percentage a.extrinsic_percentage

/-- Symmetry of the equality answer of `partialCmp`. -/
theorem F64.partialCmp_eq_comm (a b : F64) :
    a.partialCmp b = some Ordering.eq ↔ b.partialCmp a = some Ordering.eq := by
  cases a <;> cases b <;> simp [F64.partialCmp, qcmp_eq_iff] <;> omega

/-- If the ratio comparator lets `a` come before `b` and neither ratio is a
NaN, then the ratios really are in nondecreasing IEEE order. -/
theorem ratioLe_imp (a b : RatioTableEntry)
    (h : (ratioEntryCmp a b != Ordering.gt) = true)
    (ha : a.ratio.isNaN = false) (hb : b.ratio.isNaN = false) :
    a.ratio.leb b.ratio = true := by
  have h : ratioEntryCmp a b ≠ Ordering.gt := by
    intro heq
    rw [heq] at h
    exact absurd h (by decide)
  cases hc : a.ratio.partialCmp b.ratio with
  | none =>
    rw [F64.partialCmp_eq_none_iff] at hc
    simp [ha, hb] at hc
  | some o =>
    refine F64.leb_of_partialCmp hc ?_
    intro hgt
    exact h (by simp [ratioEntryCmp, hc, hgt])

/-- If the step comparator lets `a` come before `b` and neither percentage
is a NaN, then the percentages really are in nonincreasing IEEE order. -/
theorem stepLe_imp (a b : StepRepeatIncr)
    (h : (stepCmp a b != Ordering.gt) = true)
    (ha : a.extrinsic_percentage.isNaN = false)
    (hb : b.extrinsic_percentage.isNaN = false) :
    a.extrinsic_percentage.geb b.extrinsic_percentage = true := by
  have h : stepCmp a b ≠ Ordering.gt := by
    intro heq
    rw [heq] at h
    exact absurd h (by decide)
  cases hc : b.extrinsic_percentage.partialCmp a.extrinsic_percentage with
  | none =>
    rw [F64.partialCmp_eq_none_iff] at hc
    simp [ha, hb] at hc
  | some o =>
    cases o with
    | lt =>
      have : a.extrinsic_percentage.partialCmp b.extrinsic_percentage =
          some Ordering.gt := (F64.partialCmp_gt_iff_lt _ _).mpr hc
      exact F64.geb_of_partialCmp this (by simp)
    | eq =>
      have : a.extrinsic_percentage.partialCmp b.extrinsic_percentage =
          some Ordering.eq := (F64.partialCmp_eq_comm _ _).mpr hc
      exact F64.geb_of_partialCmp this (by simp)
    | gt => exact absurd (by simp [stepCmp, hc]) h

/-- Folding `push` over a list of entries appends them in order
(`RatioTable`). -/
theorem foldl_push_inner (es : List RatioTableEntry) (t : RatioTable) :
    (es.foldl RatioTable.push t).inner = t.inner ++ es := by
  induction es generalizing t with
  | nil => simp
  | cons e es ih => simp [List.foldl_cons, ih, RatioTable.push]

/-- Folding `push` over a list of entries appends them in order
(`StepIncrTable`). -/
theorem foldl_push_inner_step (gs : List StepIncrTableEntry)
    (t : StepIncrTable) :
    (gs.foldl StepIncrTable.push t).inner = t.inner ++ gs := by
  induction gs generalizing t with
  | nil => simp
  | cons g gs ih => simp [List.foldl_cons, ih, StepIncrTable.push]

/-- Pointwise description of the step sort: every entry keeps its pallet and
extrinsic and gets its steps stably sorted. -/
theorem step_sort_entries_pointwise (u : StepIncrTable) :
    List.Forall₂ (fun e' e => e'.pallet = e.pallet ∧ e'.extrinsic = e.extrinsic ∧
        e'.steps = sortByCmp stepCmp e.steps)
      u.sort_by_extrinsic_percentage.inner u.inner := by
  rw [StepIncrTable.sort_by_extrinsic_percentage]
  rw [List.forall₂_map_left_iff]
  exact List.forall₂_same.mpr fun e he => ⟨rfl, rfl, rfl⟩

/-! ### The claims -/

/-- C1: for every `RatioTable`, after `sort_by_ratio`, every pair of adjacent
tuples of `raw_list` has nondecreasing ratios whenever both ratio values are
non-NaN. -/
theorem sort_by_ratio_adjacent_nondecreasing (t : RatioTable) :
    t.sort_by_ratio.raw_list.Chain' (fun x y =>
      (rawRatio x).isNaN = false → (rawRatio y).isNaN = false →
        (rawRatio x).leb (rawRatio y) = true) := by
  rw [RatioTable.sort_by_ratio, RatioTable.raw_list]
  rw [List.chain'_map]
  refine (sortLe_chain' ratioEntryCmp_total t.inner).imp ?_
  exact fun a b h ha hb => ratioLe_imp a b h ha hb

/-- C2 counterexample: on a table whose single entry holds a NaN percentage
step followed by a zero percentage step, the sorted steps do not satisfy the
claimed unguarded adjacent `>=` ordering (the NaN comparison is false). -/
theorem step_sort_nan_adjacent_violation :
    ¬ ∀ e ∈ nanStepTable.sort_by_extrinsic_percentage.inner,
        e.steps.Chain' (fun a b =>
          a.extrinsic_percentage.geb b.extrinsic_percentage = true) := by
  intro h
  have hinner : nanStepTable.sort_by_extrinsic_percentage.inner =
      [⟨"p", "e", [nanStep, zeroStep]⟩] := by decide
  have h1 := h ⟨"p", "e", [nanStep, zeroStep]⟩
    (by rw [hinner]; exact List.mem_singleton.mpr rfl)
  have h2 : nanStep.extrinsic_percentage.geb zeroStep.extrinsic_percentage
      = true := (List.chain'_cons.mp h1).1
  exact absurd h2 (by decide)

/-- C2 amended: after `sort_by_extrinsic_percentage`, within every entry all
adjacent steps are in nonincreasing `extrinsic_percentage` order whenever
both percentages are non-NaN; the entries keep their identities and their
relative order, and every entry keeps exactly its own steps (so no step
moves across entries). -/
theorem step_sort_correct (t : StepIncrTable) :
    (∀ e ∈ t.sort_by_extrinsic_percentage.inner,
        e.steps.Chain' (fun a b =>
          a.extrinsic_percentage.isNaN = false →
          b.extrinsic_percentage.isNaN = false →
          a.extrinsic_percentage.geb b.extrinsic_percentage = true)) ∧
      t.sort_by_extrinsic_percentage.inner.map (fun e => (e.pallet, e.extrinsic)) =
        t.inner.map (fun e => (e.pallet, e.extrinsic)) ∧
      List.Forall₂ (fun e' e => e'.pallet = e.pallet ∧ e'.extrinsic = e.extrinsic ∧
          e'.steps.Perm e.steps)
        t.sort_by_extrinsic_percentage.inner t.inner := by
  refine ⟨?_, ?_, ?_⟩
  · intro e' he'
    rw [StepIncrTable.sort_by_extrinsic_percentage] at he'
    simp only [List.mem_map] at he'
    obtain ⟨e, he, rfl⟩ := he'
    refine (sortLe_chain' stepCmp_total e.steps).imp ?_
    exact fun a b h ha hb => stepLe_imp a b h ha hb
  · rw [StepIncrTable.sort_by_extrinsic_percentage]
    rw [List.map_map]
    rfl
  · refine (step_sort_entries_pointwise t).imp ?_
    rintro e' e ⟨hp, hx, hs⟩
    exact ⟨hp, hx, hs ▸ sortLe_perm _ e.steps⟩

set_option maxRecDepth 10000 in
/-- C3 counterexample: on the specification's two example entries,
`print_entries` does not produce the claimed text verbatim — the claimed
header gives the Extrinsic cell only 13 characters, while the code centers
"Extrinsic" in a 14-character cell with the extra space on the right. -/
theorem print_entries_claimed_format_fails :
    demoTable.print_entries ≠
      "|    Pallet    |  Extrinsic  |    Ratio     |   Increase   |\n" ++
        "|--------------|--------------|--------------|--------------|\n" ++
        "|identity      |add_registrar |1             |           0 %|\n" ++
        "|treasury      |tip_new       |1.8363        |     83.6271 %|\n" := by
  decide

set_option maxRecDepth 10000 in
/-- C3 amended: on the specification's two example entries, `print_entries`
produces exactly the header row (each cell centered in 14 characters, the
extra space on the right, so the Extrinsic cell is "  Extrinsic   "), the
separator of four 14-dash groups, and one body row per entry with pallet,
extrinsic and ratio left-aligned in 14-character fields and the percentage
right-aligned in a 12-character field followed by a space and a percent
sign. -/
theorem print_entries_exact_output :
    demoTable.print_entries =
      "|    Pallet    |  Extrinsic   |    Ratio     |   Increase   |\n" ++
        "|--------------|--------------|--------------|--------------|\n" ++
        "|identity      |add_registrar |1             |           0 %|\n" ++
        "|treasury      |tip_new       |1.8363        |     83.6271 %|\n" := by
  decide

/-- C4: for both tables and every sequence of pushes, `raw_list` returns one
tuple per entry (per entry-step pair for `StepIncrTable`) in table order,
each field copied verbatim from the entry or step it came from. -/
theorem push_export_fidelity :
    (∀ es : List RatioTableEntry,
        (es.foldl RatioTable.push RatioTable.new).raw_list =
          es.map fun e =>
            (e.pallet, e.extrinsic, e.avg_extrinsic_time,
              e.avg_storage_root_time, e.ratio, e.percentage)) ∧
      ∀ gs : List StepIncrTableEntry,
        (gs.foldl StepIncrTable.push StepIncrTable.new).raw_list =
          (gs.map fun e => e.steps.map fun s => stepRawOf e s).flatten := by
  constructor
  · intro es
    rw [RatioTable.raw_list, foldl_push_inner]
    rfl
  · intro gs
    rw [StepIncrTable.raw_list, foldl_push_inner_step]
    rfl

/-- C5: the Rust `StepIncrTable::raw_list` flattens in entry-major, step-minor order;
its length is the sum of the step counts, and in particular step counts
[2, 0, 3] give exactly 5 tuples. -/
theorem step_raw_list_flatten (t : StepIncrTable) :
    t.raw_list = (t.inner.map fun e => e.steps.map fun s => stepRawOf e s).flatten ∧
      t.raw_list.length = (t.inner.map fun e => e.steps.length).sum ∧
      ((t.inner.map fun e => e.steps.length) = [2, 0, 3] →
        t.raw_list.length = 5) := by
  have hlen : t.raw_list.length = (t.inner.map fun e => e.steps.length).sum := by
    rw [StepIncrTable.raw_list, List.length_flatten, List.map_map]
    refine congrArg List.sum (List.map_congr_left ?_)
    intro e he
    exact List.length_map _ _
  refine ⟨rfl, hlen, fun h => ?_⟩
  rw [hlen, h]
  rfl

/-- C5 witness: a concrete table with step counts [2, 0, 3] exports exactly
5 tuples. -/
theorem step_raw_list_flatten_witness :
    (fiveStepTable.inner.map fun e => e.steps.length) = [2, 0, 3] ∧
      fiveStepTable.raw_list.length = 5 :=
  ⟨by decide, (step_raw_list_flatten fiveStepTable).2.2 (by decide)⟩

/-- C6: both sorts are total for all inputs, NaN included: sorting always
returns a permutation of the exported data (nothing is lost, no panic is
modelled), and both comparators answer Equal whenever the underlying
floating-point comparison is unordered. -/
theorem sorts_total_nan_tolerant :
    (∀ t : RatioTable, t.sort_by_ratio.raw_list.Perm t.raw_list) ∧
      (∀ u : StepIncrTable,
        List.Forall₂ (fun e' e => e'.pallet = e.pallet ∧
            e'.extrinsic = e.extrinsic ∧ e'.steps.Perm e.steps)
          u.sort_by_extrinsic_percentage.inner u.inner) ∧
      (∀ a b : RatioTableEntry, a.ratio.partialCmp b.ratio = none →
        ratioEntryCmp a b = Ordering.eq) ∧
      ∀ a b : StepRepeatIncr,
        b.extrinsic_percentage.partialCmp a.extrinsic_percentage = none →
          stepCmp a b = Ordering.eq := by
  refine ⟨?_, ?_, ?_, ?_⟩
  · intro t
    exact (sortLe_perm _ t.inner).map _
  · intro u
    refine (step_sort_entries_pointwise u).imp ?_
    rintro e' e ⟨hp, hx, hs⟩
    exact ⟨hp, hx, hs ▸ sortLe_perm _ e.steps⟩
  · intro a b h
    rw [ratioEntryCmp, h]
    rfl
  · intro a b h
    rw [stepCmp, h]
    rfl

/-- C6 witness: at concrete NaN inputs the comparisons are unordered and
both comparators answer Equal. -/
theorem sorts_total_nan_tolerant_witness :
    nanEntry.ratio.partialCmp nanEntry.ratio = none ∧
      ratioEntryCmp nanEntry nanEntry = Ordering.eq ∧
      nanStep.extrinsic_percentage.partialCmp nanStep.extrinsic_percentage
        = none ∧
      stepCmp nanStep nanStep = Ordering.eq :=
  ⟨by decide, sorts_total_nan_tolerant.2.2.1 nanEntry nanEntry (by decide),
    by decide, sorts_total_nan_tolerant.2.2.2 nanStep nanStep (by decide)⟩

/-- C7: sorting preserves the multiset of entries of a `RatioTable` (every
field intact) and the length of both tables; for a `StepIncrTable` every
entry keeps its pallet, extrinsic and the multiset of its steps, in the same
entry order, so no operation modifies a field, removes an entry, or shrinks
a table. -/
theorem entries_preserved :
    (∀ t : RatioTable,
        (t.sort_by_ratio.inner : Multiset RatioTableEntry) =
            (t.inner : Multiset RatioTableEntry) ∧
          t.sort_by_ratio.inner.length = t.inner.length) ∧
      ∀ u : StepIncrTable,
        u.sort_by_extrinsic_percentage.inner.length = u.inner.length ∧
          List.Forall₂ (fun e' e => e'.pallet = e.pallet ∧
              e'.extrinsic = e.extrinsic ∧
              (e'.steps : Multiset StepRepeatIncr) =
                (e.steps : Multiset StepRepeatIncr))
            u.sort_by_extrinsic_percentage.inner u.inner := by
  constructor
  · intro t
    have hp := sortLe_perm (fun a b => ratioEntryCmp a b != Ordering.gt) t.inner
    exact ⟨Multiset.coe_eq_coe.mpr hp, hp.length_eq⟩
  · intro u
    constructor
    · rw [StepIncrTable.sort_by_extrinsic_percentage]
      exact List.length_map _ _
    · refine (step_sort_entries_pointwise u).imp ?_
      rintro e' e ⟨hp, hx, hs⟩
      exact ⟨hp, hx, hs ▸ Multiset.coe_eq_coe.mpr (sortLe_perm _ e.steps)⟩

/-- Sorting a `RatioTable` twice gives the same table as sorting once. -/
theorem ratio_sort_idem (t : RatioTable) :
    t.sort_by_ratio.sort_by_ratio = t.sort_by_ratio :=
  congrArg RatioTable.mk (sortLe_idem ratioEntryCmp_total t.inner)

/-- Sorting a `StepIncrTable` twice gives the same table as sorting once. -/
theorem step_sort_idem (u : StepIncrTable) :
    u.sort_by_extrinsic_percentage.sort_by_extrinsic_percentage =
      u.sort_by_extrinsic_percentage := by
  show StepIncrTable.mk ((u.inner.map _).map _) = StepIncrTable.mk (u.inner.map _)
  rw [List.map_map]
  refine congrArg StepIncrTable.mk (List.map_congr_left ?_)
  intro e he
  show StepIncrTableEntry.mk e.pallet e.extrinsic
      (sortByCmp stepCmp (sortByCmp stepCmp e.steps)) =
    StepIncrTableEntry.mk e.pallet e.extrinsic (sortByCmp stepCmp e.steps)
  rw [show sortByCmp stepCmp (sortByCmp stepCmp e.steps) = sortByCmp stepCmp e.steps
    from sortLe_idem stepCmp_total e.steps]

/-- C8: for NaN-free tables, applying the sort twice yields the same
exported order as applying it once (in this model this even holds without
the NaN-freeness assumptions). -/
theorem sort_idempotent (t : RatioTable) (u : StepIncrTable)
    (h1 : ∀ e ∈ t.inner, e.ratio.isNaN = false)
    (h2 : ∀ e ∈ u.inner, ∀ s ∈ e.steps, s.extrinsic_percentage.isNaN = false) :
    t.sort_by_ratio.sort_by_ratio.raw_list = t.sort_by_ratio.raw_list ∧
      u.sort_by_extrinsic_percentage.sort_by_extrinsic_percentage.raw_list =
        u.sort_by_extrinsic_percentage.raw_list :=
  ⟨congrArg RatioTable.raw_list (ratio_sort_idem t),
    congrArg StepIncrTable.raw_list (step_sort_idem u)⟩

/-- C8 witness: idempotence at concrete NaN-free tables. -/
theorem sort_idempotent_witness :
    (∀ e ∈ demoTable.inner, e.ratio.isNaN = false) ∧
      (∀ e ∈ fiveStepTable.inner, ∀ s ∈ e.steps,
        s.extrinsic_percentage.isNaN = false) ∧
      (demoTable.sort_by_ratio.sort_by_ratio.raw_list =
          demoTable.sort_by_ratio.raw_list ∧
        fiveStepTable.sort_by_extrinsic_percentage.sort_by_extrinsic_percentage.raw_list =
          fiveStepTable.sort_by_extrinsic_percentage.raw_list) :=
  ⟨by decide, by decide,
    sort_idempotent demoTable fiveStepTable (by decide) (by decide)⟩

set_option maxRecDepth 10000 in
/-- C9: an empty `RatioTable` prints exactly the header and separator rows
with no body rows, and an empty `StepIncrTable` exports the empty list. -/
theorem empty_table_output :
    RatioTable.new.print_entries =
      "|    Pallet    |  Extrinsic   |    Ratio     |   Increase   |\n" ++
        "|--------------|--------------|--------------|--------------|\n" ∧
      StepIncrTable.new.raw_list = [] :=
  ⟨by decide, rfl⟩

/-- C10: both sorts are stable: on NaN-free tables, the subsequence of
entries whose ratio equals any given value (respectively, of steps within an
entry whose extrinsic percentage equals any given value) is exactly the same,
in the same order, before and after sorting. -/
theorem sorts_stable (t : RatioTable) (v : F64) (u : StepIncrTable) (w : F64)
    (h1 : ∀ e ∈ t.inner, e.ratio.isNaN = false)
    (h2 : ∀ e ∈ u.inner, ∀ s ∈ e.steps, s.extrinsic_percentage.isNaN = false) :
    t.sort_by_ratio.inner.filter (fun e => e.ratio.eqb v) =
        t.inner.filter (fun e => e.ratio.eqb v) ∧
      List.Forall₂ (fun e' e =>
          e'.steps.filter (fun s => s.extrinsic_percentage.eqb w) =
            e.steps.filter (fun s => s.extrinsic_percentage.eqb w))
        u.sort_by_extrinsic_percentage.inner u.inner := by
  constructor
  · refine filter_sortLe ?_ t.inner
    intro a b hpa hpb
    rw [F64.eqb_iff] at hpa hpb
    have hab : a.ratio.partialCmp b.ratio = some Ordering.eq :=
      F64.partialCmp_eq_trans hpa hpb
    show (ratioEntryCmp a b != Ordering.gt) = true
    rw [ratioEntryCmp, hab]
    rfl
  · refine (step_sort_entries_pointwise u).imp ?_
    intro e' e h
    rw [h.2.2]
    refine filter_sortLe ?_ e.steps
    intro a b hpa hpb
    rw [F64.eqb_iff] at hpa hpb
    have hba : b.extrinsic_percentage.partialCmp a.extrinsic_percentage =
        some Ordering.eq := F64.partialCmp_eq_trans hpb hpa
    show (stepCmp a b != Ordering.gt) = true
    rw [stepCmp, hba]
    rfl

/-- C10 witness: stability at concrete NaN-free tables. -/
theorem sorts_stable_witness :
    (∀ e ∈ demoTable.inner, e.ratio.isNaN = false) ∧
      (∀ e ∈ fiveStepTable.inner, ∀ s ∈ e.steps,
        s.extrinsic_percentage.isNaN = false) ∧
      (demoTable.sort_by_ratio.inner.filter
            (fun e => e.ratio.eqb (F64.finite 1)) =
          demoTable.inner.filter (fun e => e.ratio.eqb (F64.finite 1)) ∧
        List.Forall₂ (fun e' e =>
            e'.steps.filter (fun s => s.extrinsic_percentage.eqb (F64.finite 0)) =
              e.steps.filter (fun s => s.extrinsic_percentage.eqb (F64.finite 0)))
          fiveStepTable.sort_by_extrinsic_percentage.inner fiveStepTable.inner) :=
  ⟨by decide, by decide,
    sorts_stable demoTable (F64.finite 1) fiveStepTable (F64.finite 0)
      (by decide) (by decide)⟩

end SBR
